import Mathlib

/-!
Shallow embedding of the SP5ToICalExp core text-processing pipeline
(`src/app/views.py` and `src/utils/text_to_ical.py`).

Strings are modelled as lists of characters; the Python regular-expression
character classes `\s` and `\d` are modelled over their ASCII ranges, and
the explicit German letters appearing in the source patterns are listed
literally.  Every matcher below implements one concrete pattern from the
source, with the left-to-right scanning and greedy/lazy backtracking
semantics of Python's `re` module for that pattern.
-/

/-- Python regex class `\s` (ASCII part): space, tab, newline, carriage
return, vertical tab, form feed.  Also used for `str.strip()`. -/
def isWs (c : Char) : Bool :=
  c = ' ' || c = '\t' || c = '\n' || c = '\r' || c = '\x0b' || c = '\x0c'

/-- The character class `[a-zA-ZäöüÄÖÜß\s]` of the name pattern in
`process_multiple_persons_text`. -/
def isNameChar (c : Char) : Bool :=
  c.isAlpha || c = 'ä' || c = 'ö' || c = 'ü' || c = 'Ä' || c = 'Ö' || c = 'Ü' ||
    c = 'ß' || isWs c

/-- `beginsWith pat l` holds when `pat` is an initial segment of `l`. -/
def beginsWith : List Char → List Char → Bool
  | [], _ => true
  | _ :: _, [] => false
  | p :: ps, c :: cs => p = c && beginsWith ps cs

/-- `hasSub pat l` holds when `pat` occurs as a contiguous substring of `l`. -/
def hasSub (pat : List Char) : List Char → Bool
  | [] => beginsWith pat []
  | c :: cs => beginsWith pat (c :: cs) || hasSub pat cs

/-- Remove trailing whitespace. -/
def trimEnd (l : List Char) : List Char := (l.reverse.dropWhile isWs).reverse

/-- Python `str.strip()`: remove leading and trailing whitespace. -/
def stripWs (l : List Char) : List Char := trimEnd (l.dropWhile isWs)

/-- Worker for `collapseWs`; the flag records whether we are inside a
whitespace run whose replacement space was already emitted. -/
def collapseWsAux : Bool → List Char → List Char
  | _, [] => []
  | inRun, c :: cs =>
    if isWs c then
      if inRun then collapseWsAux true cs else ' ' :: collapseWsAux true cs
    else c :: collapseWsAux false cs

/-- Python `re.sub(r'\s+', ' ', ·)`: collapse each whitespace run to one
space (first cleanup step of `clean_name`). -/
def collapseWs (l : List Char) : List Char := collapseWsAux false l

/-- Worker for `commaSpace`.  `pend` holds a pending whitespace run that
precedes the current position (it belongs to a match only if a comma
follows); the flag records that a comma was just replaced, so following
whitespace was consumed by the greedy trailing `\s*` of that match. -/
def commaSpaceAux : Bool → List Char → List Char → List Char
  | _, pend, [] => pend
  | skipMode, pend, c :: cs =>
    if isWs c then
      if skipMode then commaSpaceAux true pend cs
      else commaSpaceAux false (pend ++ [c]) cs
    else if c = ',' then ',' :: ' ' :: commaSpaceAux true [] cs
    else pend ++ c :: commaSpaceAux false [] cs

/-- Python `re.sub(r'\s*,\s*', ', ', ·)`: normalize spacing around commas
(second cleanup step of `clean_name`). -/
def commaSpace (l : List Char) : List Char := commaSpaceAux false [] l

/-- Python `str.replace` for a three-character pattern `[a, b, c]`:
replace every (non-overlapping, left-to-right) occurrence by `rep`. -/
def replace3 (a b c : Char) (rep : List Char) : List Char → List Char
  | x :: y :: z :: rest =>
    if x = a && y = b && z = c then rep ++ replace3 a b c rep rest
    else x :: replace3 a b c rep (y :: z :: rest)
  | l => l

/-- `german_to_english_weekday` from `views.py`: the seven sequential
`str.replace` calls, in source order (Mo., Di., Mi., Do., Fr., Sa., So.). -/
def germanToEnglishL (l : List Char) : List Char :=
  replace3 'S' 'o' '.' "Sun.".data
    (replace3 'S' 'a' '.' "Sat.".data
      (replace3 'F' 'r' '.' "Fri.".data
        (replace3 'D' 'o' '.' "Thu.".data
          (replace3 'M' 'i' '.' "Wed.".data
            (replace3 'D' 'i' '.' "Tue.".data
              (replace3 'M' 'o' '.' "Mon.".data l))))))

/-- String-level wrapper for `german_to_english_weekday`. -/
def german_to_english_weekday (s : String) : String := ⟨germanToEnglishL s.data⟩

/-- Python `re.sub(r'0$', '', ·)`: drop a single literal `0` at the very
end of the string (first step of `normalize_entry`). -/
def stripTrailZero (l : List Char) : List Char :=
  match l.reverse with
  | '0' :: r => r.reverse
  | _ => l

/-- Greedy `\d{1,2}` anchored at the head: two digits when available,
else one; returns the rest.  (Retrying with one digit after a two-digit
match never helps for the patterns below, because the follow-up literal
is never a digit.) -/
def digits12Tail (l : List Char) : Option (List Char) :=
  match l with
  | d1 :: d2 :: t =>
    if d1.isDigit then (if d2.isDigit then some t else some (d2 :: t)) else none
  | [d1] => if d1.isDigit then some [] else none
  | [] => none

/-- `\d{1,2}-\d{1,2}` anchored at the head; returns the rest. -/
def rangeCore (m : List Char) : Option (List Char) :=
  match digits12Tail m with
  | some ('-' :: t) => digits12Tail t
  | _ => none

/-- One attempt of `\s?\d{1,2}-\d{1,2}` anchored at the head of the list
(the optional whitespace character is taken greedily; backtracking to the
empty alternative cannot succeed because a digit must follow). -/
def rangeTail (l : List Char) : Option (List Char) :=
  match l with
  | [] => none
  | c :: cs => if isWs c then rangeCore cs else rangeCore (c :: cs)

/-- Fuelled scan for `stripRanges`; the fuel is the length of the list,
which bounds the number of scanning steps. -/
def stripRangesF : Nat → List Char → List Char
  | 0, l => l
  | _, [] => []
  | f + 1, c :: cs =>
    match rangeTail (c :: cs) with
    | some t => stripRangesF f t
    | none => c :: stripRangesF f cs

/-- Python `re.sub(r'\s?\d{1,2}-\d{1,2}', '', ·)` (second step of
`normalize_entry`): remove every non-overlapping occurrence, scanning
left to right and continuing after each match. -/
def stripRanges (l : List Char) : List Char := stripRangesF l.length l

/-- Python `re.sub(r'\s?\d+$', '', ·)` (third step of `normalize_entry`):
when the string ends with a digit run, remove that run together with one
immediately preceding whitespace character if present (the leftmost match
of the anchored pattern starts exactly there). -/
def stripTrailNum (l : List Char) : List Char :=
  let r := l.reverse
  let ds := r.takeWhile (fun c => c.isDigit)
  if ds = [] then l
  else
    match r.drop ds.length with
    | w :: rest => if isWs w then rest.reverse else (r.drop ds.length).reverse
    | [] => []

/-- `normalize_entry` from `views.py`: the four ordered transformations. -/
def normalizeEntryL (l : List Char) : List Char :=
  stripWs (stripTrailNum (stripRanges (stripTrailZero l)))

/-- String-level wrapper for `normalize_entry`. -/
def normalize_entry (s : String) : String := ⟨normalizeEntryL s.data⟩

/-- `\d{1,2}:\d{2}` anchored at the head; returns the rest. -/
def hmCore (l : List Char) : Option (List Char) :=
  match digits12Tail l with
  | some (':' :: d1 :: d2 :: t) =>
    if d1.isDigit && d2.isDigit then some t else none
  | _ => none

/-- `\d{1,2}:\d{2}-\d{1,2}:\d{2}` anchored at the head; returns the rest. -/
def timeRangeTail (l : List Char) : Option (List Char) :=
  match hmCore l with
  | some ('-' :: t) => hmCore t
  | _ => none

/-- Fuelled scan for `stripTimeRanges`. -/
def stripTimeRangesF : Nat → List Char → List Char
  | 0, l => l
  | _, [] => []
  | f + 1, c :: cs =>
    match timeRangeTail (c :: cs) with
    | some t => stripTimeRangesF f t
    | none => c :: stripTimeRangesF f cs

/-- Python `re.sub(r'\d{1,2}:\d{2}-\d{1,2}:\d{2}', '', ·)` used on the
entry of non-all-day records in `process_extracted_text`. -/
def stripTimeRanges (l : List Char) : List Char := stripTimeRangesF l.length l

/-- `\d{2}\.\d{2}\.\d{4}` anchored at the head; returns capture and rest. -/
def ddDotDdDotYyyy (r : List Char) : Option (List Char × List Char) :=
  match r with
  | a :: b :: '.' :: c :: d :: '.' :: e :: f :: g :: h :: t =>
    if a.isDigit && b.isDigit && c.isDigit && d.isDigit && e.isDigit &&
        f.isDigit && g.isDigit && h.isDigit then
      some ([a, b, '.', c, d, '.', e, f, g, h], t)
    else none
  | _ => none

/-- The date group `[A-Za-z]+\.\s\d{2}\.\d{2}\.\d{4}` of both line
patterns in `process_line`, anchored at the head: a maximal nonempty
ASCII-letter run, a dot, one whitespace character, then the numeric date
(the letter run is greedy and a dot cannot be a letter, so no
backtracking arises).  Returns capture and rest. -/
def dateAt (l : List Char) : Option (List Char × List Char) :=
  let letters := l.takeWhile (fun c => c.isAlpha)
  if letters = [] then none
  else
    match l.drop letters.length with
    | '.' :: s :: r =>
      if isWs s then
        match ddDotDdDotYyyy r with
        | some (ds, t) => some (letters ++ '.' :: s :: ds, t)
        | none => none
      else none
    | _ => none

/-- `\d{2}:\d{2}` anchored at the head; returns capture and rest. -/
def hhmm2 (l : List Char) : Option (List Char × List Char) :=
  match l with
  | a :: b :: ':' :: c :: d :: t =>
    if a.isDigit && b.isDigit && c.isDigit && d.isDigit then
      some ([a, b, ':', c, d], t)
    else none
  | _ => none

/-- The time group `\d{2}:\d{2}-\d{2}:\d{2}` of the regular line pattern,
anchored at the head; returns capture and rest. -/
def timeAt (l : List Char) : Option (List Char × List Char) :=
  match hhmm2 l with
  | some (t1, '-' :: r) =>
    match hhmm2 r with
    | some (t2, r2) => some (t1 ++ '-' :: t2, r2)
    | none => none
  | _ => none

/-- The hours group `\d{1,2},\d{2}` of both line patterns, anchored at
the head (greedy `\d{1,2}`); returns capture and rest. -/
def hoursAt (l : List Char) : Option (List Char × List Char) :=
  match l with
  | a :: b :: c :: d :: e :: t =>
    if a.isDigit && b.isDigit && c = ',' && d.isDigit && e.isDigit then
      some ([a, b, ',', d, e], t)
    else if a.isDigit && b = ',' && c.isDigit && d.isDigit then
      some ([a, ',', c, d], e :: t)
    else none
  | [a, b, c, d] =>
    if a.isDigit && b = ',' && c.isDigit && d.isDigit then
      some ([a, ',', c, d], [])
    else none
  | _ => none

/-- The stop keyword of the entry capture in `process_line`. -/
def zeitraumMarker : List Char := "Zeitraum".data

/-- The lazy capture `(?P<entry>.*?)` followed by the lookahead
`(?=Zeitraum|$)`: the shortest prefix whose remainder starts with the
marker or is empty; the dot does not match a newline. -/
def lazyEntry : List Char → Option (List Char)
  | [] => some []
  | c :: cs =>
    if beginsWith zeitraumMarker (c :: cs) then some []
    else if c = '\n' then none
    else
      match lazyEntry cs with
      | some e => some (c :: e)
      | none => none

/-- The captured groups of one matched roster line. -/
structure LineMatch where
  date : List Char
  time : Option (List Char)
  hours : List Char
  entry : List Char
deriving DecidableEq, Repr

/-- `pattern_regular` of `process_line`, attempted at the head of `l`. -/
def matchRegularAt (l : List Char) : Option LineMatch :=
  match dateAt l with
  | some (d, r1) =>
    match r1 with
    | s1 :: r2 =>
      if isWs s1 then
        match timeAt r2 with
        | some (tm, r3) =>
          match r3 with
          | s2 :: r4 =>
            if isWs s2 then
              match hoursAt r4 with
              | some (hs, r5) =>
                match lazyEntry r5 with
                | some e => some ⟨d, some tm, hs, e⟩
                | none => none
              | none => none
            else none
          | [] => none
        | none => none
      else none
    | [] => none
  | none => none

/-- The literal all-day keyword of `pattern_all_day`. -/
def ganztagigMarker : List Char := "Ganztägig".data

/-- `pattern_all_day` of `process_line`, attempted at the head of `l`. -/
def matchAllDayAt (l : List Char) : Option LineMatch :=
  match dateAt l with
  | some (d, r1) =>
    match r1 with
    | s1 :: r2 =>
      if isWs s1 && beginsWith ganztagigMarker r2 then
        match r2.drop ganztagigMarker.length with
        | s2 :: r3 =>
          if isWs s2 then
            match hoursAt r3 with
            | some (hs, r4) =>
              match lazyEntry r4 with
              | some e => some ⟨d, none, hs, e⟩
              | none => none
            | none => none
          else none
        | [] => none
      else none
    | [] => none
  | none => none

/-- `re.search` with `pattern_regular`: leftmost successful position. -/
def searchRegular : List Char → Option LineMatch
  | [] => none
  | c :: cs =>
    match matchRegularAt (c :: cs) with
    | some m => some m
    | none => searchRegular cs

/-- `re.search` with `pattern_all_day`: leftmost successful position. -/
def searchAllDay : List Char → Option LineMatch
  | [] => none
  | c :: cs =>
    match matchAllDayAt (c :: cs) with
    | some m => some m
    | none => searchAllDay cs

/-- `process_line` from `views.py`: the regular pattern is searched over
the whole line first, then the all-day pattern. -/
def processLineL (l : List Char) : Option LineMatch :=
  match searchRegular l with
  | some m => some m
  | none => searchAllDay l

/-- One parsed shift record as produced by `process_extracted_text`.
`shift_time` holds the placeholder string "All Day" for all-day rows,
exactly as the source dictionary does. -/
structure Shift where
  date : String
  shift_time : String
  hours : String
  entry : String
  all_day : Bool
deriving DecidableEq, Repr

/-- The per-line post-processing of `process_extracted_text`: weekday
translation, the "All Day" default for the missing time group, removal of
an embedded time range from non-all-day entries, and entry
normalization. -/
def buildShift (m : LineMatch) : Shift :=
  let date := germanToEnglishL m.date
  let shiftTime := match m.time with
    | some t => t
    | none => "All Day".data
  let allDay := shiftTime == "All Day".data
  let e0 := stripWs m.entry
  let e1 := if allDay then e0 else stripWs (stripTimeRanges e0)
  let e2 := normalizeEntryL e1
  ⟨⟨date⟩, ⟨shiftTime⟩, ⟨m.hours⟩, ⟨e2⟩, allDay⟩

/-- Worker for `splitNl` (accumulator is reversed). -/
def splitNlAux (cur : List Char) : List Char → List (List Char)
  | [] => [cur.reverse]
  | c :: cs =>
    if c = '\n' then cur.reverse :: splitNlAux [] cs else splitNlAux (c :: cur) cs

/-- Python `str.split("\n")`. -/
def splitNl (l : List Char) : List (List Char) := splitNlAux [] l

/-- Python `"\n".join(·)`. -/
def joinNl : List (List Char) → List Char
  | [] => []
  | [x] => x
  | x :: y :: r => x ++ '\n' :: joinNl (y :: r)

/-- `process_extracted_text` from `views.py`: split into lines, parse
each line, keep the successfully parsed records in order. -/
def processExtractedTextL (l : List Char) : List Shift :=
  (splitNl l).filterMap (fun line => (processLineL line).map buildShift)

/-- String-level wrapper for `process_extracted_text`. -/
def process_extracted_text (s : String) : List Shift := processExtractedTextL s.data

/-- The leading capture group of the name pattern
`^([a-zA-ZäöüÄÖÜß\s]+,\s*[a-zA-ZäöüÄÖÜß\s]+)` used by
`process_multiple_persons_text`: the maximal nonempty name-character run,
a comma, then the maximal nonempty name-character run after it (the
backtracking interplay of the greedy `\s*` and second `+` makes the
consumed part after the comma exactly that maximal run).  `none` when the
line has no such leading shape, i.e. when `re.search` fails. -/
def nameGroup (l : List Char) : Option (List Char) :=
  let s1 := l.takeWhile isNameChar
  match l.dropWhile isNameChar with
  | ',' :: r =>
    let s2 := r.takeWhile isNameChar
    if s1 = [] then none
    else if s2 = [] then none
    else some (s1 ++ ',' :: s2)
  | _ => none

/-- Whether the segmenter classifies a line as a name line
(`if name_match:` in the source). -/
def isNameLine (l : List Char) : Bool := (nameGroup l).isSome

/-- The inner `clean_name` of `process_multiple_persons_text`: strip,
collapse whitespace runs, normalize comma spacing, in that order. -/
def cleanNameL (l : List Char) : List Char := commaSpace (collapseWs (stripWs l))

/-- The continuation marker removed by `normalize_name`. -/
def fortsMarker : List Char := " (Forts.)".data

/-- Python `name.split(' (Forts.)')[0]`: the prefix before the first
occurrence of the marker. -/
def cutAtMarker : List Char → List Char
  | [] => []
  | c :: cs =>
    if beginsWith fortsMarker (c :: cs) then [] else c :: cutAtMarker cs

/-- `normalize_name` from `views.py`. -/
def normalizeNameL (l : List Char) : List Char := cutAtMarker l

/-- String-level wrapper for `normalize_name`. -/
def normalize_name (s : String) : String := ⟨normalizeNameL s.data⟩

/-- The canonical person key a name line produces, when it is one. -/
def nameKeyOf (l : List Char) : Option String :=
  (nameGroup l).map (fun g => (⟨normalizeNameL (cleanNameL g)⟩ : String))

/-- State of the segmentation pass of `process_multiple_persons_text`:
the insertion-ordered person dictionary, the current-name cursor, and the
pending line buffer of the current person. -/
structure SegState where
  persons : List (String × List Shift)
  current : Option String
  buffer : List (List Char)
deriving Repr

/-- `persons_data[k].extend(v)` on the insertion-ordered dictionary. -/
def extendAt (k : String) (v : List Shift) :
    List (String × List Shift) → List (String × List Shift)
  | [] => []
  | (k2, vs) :: rest =>
    if k2 = k then (k2, vs ++ v) :: rest else (k2, vs) :: extendAt k v rest

/-- `k in persons_data` on the insertion-ordered dictionary. -/
def hasKey (k : String) : List (String × List Shift) → Bool
  | [] => false
  | (k2, _) :: rest => k2 = k || hasKey k rest

/-- Flushing the pending buffer through `process_extracted_text` and
appending the parsed records to the current person, as done when a new
name line is reached (`if processed_shifts: ... extend(...)`). -/
def flushBuffer (st : SegState) : SegState :=
  match st.current with
  | none => st
  | some k =>
    let shifts := processExtractedTextL (joinNl st.buffer)
    let ps := if shifts = [] then st.persons else extendAt k shifts st.persons
    ⟨ps, st.current, []⟩

/-- One line of the segmentation loop of `process_multiple_persons_text`.
On a name line the buffer is reset; the source clears `shift_data` only
inside the `if current_name:` branch, but when no name is current the
buffer is necessarily empty (lines before the first name line are
dropped), so the two are equivalent on every reachable state. -/
def segStep (st : SegState) (line : List Char) : SegState :=
  match nameGroup line with
  | some g =>
    let st1 := flushBuffer st
    let key : String := ⟨normalizeNameL (cleanNameL g)⟩
    let ps :=
      if hasKey key st1.persons then st1.persons else st1.persons ++ [(key, [])]
    ⟨ps, some key, []⟩
  | none =>
    match st.current with
    | some _ => ⟨st.persons, st.current, st.buffer ++ [line]⟩
    | none => st

/-- The trailing flush of `process_multiple_persons_text`
(`if current_name and shift_data: ...`). -/
def segFinish (st : SegState) : List (String × List Shift) :=
  match st.current with
  | some k =>
    if st.buffer = [] then st.persons
    else
      let shifts := processExtractedTextL (joinNl st.buffer)
      if shifts = [] then st.persons else extendAt k shifts st.persons
  | none => st.persons

/-- The segmentation pass over an already split line list. -/
def processLinesSeg (lines : List (List Char)) : List (String × List Shift) :=
  segFinish (lines.foldl segStep ⟨[], none, []⟩)

/-- `process_multiple_persons_text` from `views.py`:
`text.strip().split("\n")`, then the segmentation loop. -/
def processMultiplePersonsL (text : List Char) : List (String × List Shift) :=
  processLinesSeg (splitNl (stripWs text))

/-- String-level wrapper for `process_multiple_persons_text`. -/
def process_multiple_persons_text (s : String) : List (String × List Shift) :=
  processMultiplePersonsL s.data

/-- One `Counter` increment on an insertion-ordered association list. -/
def bumpCount (k : String) : List (String × Nat) → List (String × Nat)
  | [] => [(k, 1)]
  | (k2, n) :: rest =>
    if k2 = k then (k2, n + 1) :: rest else (k2, n) :: bumpCount k rest

/-- `collections.Counter` over a list of strings, modelled as an
insertion-ordered association list. -/
def counterList (l : List String) : List (String × Nat) :=
  l.foldl (fun acc x => bumpCount x acc) []

/-- `create_shift_statistics` from `views.py`: per person, the Counter of
the `entry` fields of that person's shifts. -/
def create_shift_statistics (pd : List (String × List Shift)) :
    List (String × List (String × Nat)) :=
  pd.map (fun p => (p.1, counterList (p.2.map Shift.entry)))

/-!
Calendar encoding (`src/utils/text_to_ical.py`).

The external collaborators are modelled as follows: `pytz.all_timezones`
is an environment argument (a list of zone names); timezone localization
is a fixed offset added uniformly to every wall-clock timestamp, which
cancels in every comparison `create_event` performs, so timestamps are
wall-clock minutes on a day-number scale; the external `ics` serializer
is a deterministic rendering of the event list in insertion order.
-/

/-- An input record of `convert_shifts_to_ical`: a Python dictionary in
the source, so every field may be absent (access raises `KeyError`). -/
structure RawShift where
  date : Option String
  shift_time : Option String
  hours : Option String
  entry : Option String
  all_day : Option Bool
deriving DecidableEq, Repr

/-- The records produced by the parsing pipeline always carry all five
keys. -/
def shiftToRaw (s : Shift) : RawShift :=
  ⟨some s.date, some s.shift_time, some s.hours, some s.entry, some s.all_day⟩

/-- Gregorian leap year. -/
def isLeap (y : Nat) : Bool := (y % 4 = 0 && y % 100 ≠ 0) || y % 400 = 0

/-- Length of a month, as validated by `datetime`. -/
def daysInMonth (y m : Nat) : Nat :=
  if m = 2 then (if isLeap y then 29 else 28)
  else if m = 4 || m = 6 || m = 9 || m = 11 then 30
  else 31

/-- Numeric value of a digit run. -/
def digitsVal (l : List Char) : Nat :=
  l.foldl (fun a c => a * 10 + (c.toNat - 48)) 0

/-- The seven abbreviated weekday names accepted by `%a` in the C locale
(matched case-insensitively by `strptime`). -/
def weekdayAbbrevs : List (List Char) :=
  ["mon".data, "tue".data, "wed".data, "thu".data, "fri".data, "sat".data,
   "sun".data]

/-- `datetime.strptime(·, "%a. %d.%m.%Y")`: a case-insensitive English
abbreviated weekday name, the literal dot, whitespace, then
day.month.year with day and month of one or two digits, the year of
exactly four digits, the whole string consumed and the calendar date
valid (`datetime` construction rejects out-of-range components, and its
minimum year is 1). -/
def parseDateL (l : List Char) : Option (Nat × Nat × Nat) :=
  match l with
  | a :: b :: c :: '.' :: s :: r =>
    if weekdayAbbrevs.contains [a.toLower, b.toLower, c.toLower] && isWs s then
      let r2 := r.dropWhile isWs
      let dtok := r2.takeWhile Char.isDigit
      if dtok.length = 0 || dtok.length > 2 then none
      else
        match r2.drop dtok.length with
        | '.' :: r3 =>
          let mtok := r3.takeWhile Char.isDigit
          if mtok.length = 0 || mtok.length > 2 then none
          else
            match r3.drop mtok.length with
            | '.' :: r4 =>
              if r4.length = 4 && r4.all Char.isDigit then
                let d := digitsVal dtok
                let m := digitsVal mtok
                let y := digitsVal r4
                if 1 ≤ y && 1 ≤ m && m ≤ 12 && 1 ≤ d && d ≤ daysInMonth y m then
                  some (y, m, d)
                else none
              else none
            | _ => none
        | _ => none
    else none
  | _ => none

/-- `datetime.strptime(·, "%H:%M").time()`: hour 0–23 of one or two
digits, a colon, minute 0–59 of one or two digits, whole string
consumed.  Returns (hour, minute). -/
def parseHML (l : List Char) : Option (Nat × Nat) :=
  let htok := l.takeWhile Char.isDigit
  if htok.length = 0 || htok.length > 2 then none
  else
    match l.drop htok.length with
    | ':' :: r =>
      let mtok := r.takeWhile Char.isDigit
      if mtok.length = 0 || mtok.length > 2 then none
      else if r.length ≠ mtok.length then none
      else
        let h := digitsVal htok
        let mi := digitsVal mtok
        if h ≤ 23 && mi ≤ 59 then some (h, mi) else none
    | _ => none

/-- Worker for `splitDash` (accumulator is reversed). -/
def splitDashAux (cur : List Char) : List Char → List (List Char)
  | [] => [cur.reverse]
  | c :: cs =>
    if c = '-' then cur.reverse :: splitDashAux [] cs
    else splitDashAux (c :: cur) cs

/-- Python `str.split("-")`. -/
def splitDash (s : String) : List String :=
  (splitDashAux [] s.data).map (fun l => (⟨l⟩ : String))

/-- Day count of a calendar date (days since 0000-03-01 in the proleptic
Gregorian calendar, valid for years ≥ 1): adding one moves to the next
calendar day.  Models the date part of `datetime` arithmetic. -/
def toDayNumber (y m d : Nat) : Nat :=
  let yp := if m ≤ 2 then y - 1 else y
  let mp := if m ≤ 2 then m + 9 else m - 3
  yp * 365 + yp / 4 - yp / 100 + yp / 400 + (153 * mp + 2) / 5 + (d - 1)

/-- One calendar event; timestamps are wall-clock minutes on the
day-number scale, `endMin` is absent for all-day events
(`make_all_day`). -/
structure CalEvent where
  name : String
  beginMin : Nat
  endMin : Option Nat
  allDay : Bool
deriving DecidableEq, Repr

/-- `create_event` from `convert_shifts_to_ical`.  Any missing key or
failed parse (a `ValueError`/`KeyError` in the source) yields `none`;
field access order follows the source: date, entry, all_day, shift_time.
The single fixed timezone is a constant offset on every timestamp and
cancels in the one comparison performed, so it is omitted from the
timestamps. -/
def createEvent (rs : RawShift) : Option CalEvent :=
  match rs.date with
  | none => none
  | some ds =>
    match parseDateL ds.data with
    | none => none
    | some (y, m, d) =>
      match rs.entry with
      | none => none
      | some en =>
        match rs.all_day with
        | none => none
        | some ad =>
          if ad then
            some ⟨en, toDayNumber y m d * 1440, none, true⟩
          else
            match rs.shift_time with
            | none => none
            | some st =>
              match splitDash st with
              | [t1, t2] =>
                match parseHML t1.data, parseHML t2.data with
                | some (h1, m1), some (h2, m2) =>
                  let b := toDayNumber y m d * 1440 + (h1 * 60 + m1)
                  let e0 := toDayNumber y m d * 1440 + (h2 * 60 + m2)
                  some ⟨en, b, some (if e0 < b then e0 + 1440 else e0), false⟩
                | _, _ => none
              | _ => none

/-- Deterministic rendering of one event (stand-in for the external
serializer). -/
def serializeEvent (e : CalEvent) : String :=
  e.name ++ "|" ++ toString e.beginMin ++ "|" ++
    (match e.endMin with
     | some x => toString x
     | none => "") ++ "|" ++ (if e.allDay then "1" else "0")

/-- Deterministic rendering of the whole calendar in insertion order. -/
def serializeCal (evs : List CalEvent) : String :=
  String.intercalate ";" (evs.map serializeEvent)

/-- The fixed zone name hard-coded in `convert_shifts_to_ical`. -/
def viennaTz : String := "Europe/Vienna"

/-- The nested event-collection loops of `convert_shifts_to_ical`
(`for shift_list in shifts: for shift in shift_list: ...`), keeping
successfully converted events in insertion order. -/
def collectEvents (shifts : List (List RawShift)) : List CalEvent :=
  shifts.foldl
    (fun acc lst =>
      lst.foldl
        (fun a s =>
          match createEvent s with
          | some e => a ++ [e]
          | none => a) acc) []

/-- `convert_shifts_to_ical` from `text_to_ical.py`: the fixed zone name
is checked against the timezone table (`pytz.all_timezones`, supplied as
the environment argument) before any record is processed — an absent
zone raises `ValueError` for the whole call — then one event is built per
convertible shift, in source order, and the calendar is serialized. -/
def convert_shifts_to_ical (allTimezones : List String)
    (shifts : List (List RawShift)) : Except String String :=
  if allTimezones.contains viennaTz then
    Except.ok (serializeCal (collectEvents shifts))
  else
    Except.error "timezone Europe/Vienna is not available"

/-- A caller that wants the encode operation to target a particular
timezone can still only invoke `convert_shifts_to_ical(shifts)`: the
source function has no timezone parameter, so a requested identifier is
necessarily dropped and the fixed zone is used. -/
def encodeWithRequestedTz (_tzid : String) (allTimezones : List String)
    (shifts : List (List RawShift)) : Except String String :=
  convert_shifts_to_ical allTimezones shifts

/-- A representative fragment of the `pytz.all_timezones` environment
(which does contain the fixed zone). -/
def pytzTable : List String := ["Europe/Berlin", "Europe/Vienna", "UTC"]

/-- Relational semantics of the event-collection loop over one person's
shift list: one constructor per loop iteration outcome. -/
inductive EventsOf : List RawShift → List CalEvent → Prop
  | nil : EventsOf [] []
  | skip {s : RawShift} {l : List RawShift} {evs : List CalEvent} :
      createEvent s = none → EventsOf l evs → EventsOf (s :: l) evs
  | keep {s : RawShift} {l : List RawShift} {e : CalEvent} {evs : List CalEvent} :
      createEvent s = some e → EventsOf l evs → EventsOf (s :: l) (e :: evs)

/-- Relational semantics of the outer loop over all shift lists. -/
inductive EventsOfAll : List (List RawShift) → List CalEvent → Prop
  | nil : EventsOfAll [] []
  | cons {g : List RawShift} {gs : List (List RawShift)}
      {evs1 evs2 : List CalEvent} :
      EventsOf g evs1 → EventsOfAll gs evs2 → EventsOfAll (g :: gs) (evs1 ++ evs2)

/-- Relational semantics of one invocation of `convert_shifts_to_ical`. -/
inductive Encodes (allTZ : List String) (shifts : List (List RawShift)) :
    Except String String → Prop
  | err : allTZ.contains viennaTz = false →
      Encodes allTZ shifts (Except.error "timezone Europe/Vienna is not available")
  | ok {evs : List CalEvent} : allTZ.contains viennaTz = true →
      EventsOfAll shifts evs → Encodes allTZ shifts (Except.ok (serializeCal evs))

/-!
Theorems.  Each claim `Cn` has exactly one theorem; helper lemmas are
shared.
-/

/-- The end-to-end example input of the specification. -/
def exampleText : String :=
  "Mustermann, Max\nMo. 01.01.2024 08:00-16:00 8,00TRAIN 8-16\nDi. 02.01.2024 Ganztägig 8,00ILL0"

/-- C1: on the two-line example under "Mustermann, Max", the full
pipeline produces exactly the timed TRAIN record followed by the all-day
ILL record (with the "All Day" placeholder in `shift_time`, the absent
marker of the data model), and the statistics for that person are
exactly TRAIN ↦ 1, ILL ↦ 1. -/
theorem c1_end_to_end :
    process_multiple_persons_text exampleText =
      [("Mustermann, Max",
        [⟨"Mon. 01.01.2024", "08:00-16:00", "8,00", "TRAIN", false⟩,
         ⟨"Tue. 02.01.2024", "All Day", "8,00", "ILL", true⟩])] ∧
    create_shift_statistics (process_multiple_persons_text exampleText) =
      [("Mustermann, Max", [("TRAIN", 1), ("ILL", 1)])] := by
  constructor <;> rfl

/-- C2 counterexample: `normalize_entry` is not idempotent.  On the
input "0 " (zero and a space) the first pass yields "0" (the trailing
whitespace shields the zero from both the trailing-zero rule and the
trailing-number rule until the final strip exposes it), and a second
pass then deletes it. -/
theorem c2_counterexample :
    normalize_entry (normalize_entry "0 ") ≠ normalize_entry "0 " := by
  decide

/-- C3 counterexample: the encode operation cannot fail on an unknown
requested timezone identifier, because `convert_shifts_to_ical(shifts)`
has no timezone parameter at all; a call made on behalf of a caller
requesting the unknown zone "Mars/Olympus" succeeds (with the fixed zone
present in the table) instead of raising. -/
theorem c3_counterexample :
    encodeWithRequestedTz "Mars/Olympus" pytzTable [] = Except.ok "" := by
  rfl

/-- C8 counterexample: the line "Doe, John 5" contains the digit '5' yet
is classified as a name line, because the source pattern is anchored
only at the start of the line and permits arbitrary trailing
characters. -/
theorem c8_counterexample :
    isNameLine "Doe, John 5".data = true ∧ '5' ∈ "Doe, John 5".data ∧
      Char.isDigit '5' = true := by
  refine ⟨by rfl, by decide, by rfl⟩

/-- `dropWhile` by a predicate is idempotent. -/
theorem dropWhile_ws_idem (l : List Char) :
    (l.dropWhile isWs).dropWhile isWs = l.dropWhile isWs := by
  induction l with
  | nil => rfl
  | cons c cs ih =>
    cases h : isWs c
    · simp [List.dropWhile_cons, h]
    · simp [List.dropWhile_cons, h, ih]

/-- `trimEnd` is idempotent. -/
theorem trimEnd_idem (l : List Char) : trimEnd (trimEnd l) = trimEnd l := by
  unfold trimEnd
  rw [List.reverse_reverse, dropWhile_ws_idem]

/-- `trimEnd l` is an initial segment of `l`. -/
theorem trimEnd_append (l : List Char) :
    trimEnd l ++ (l.reverse.takeWhile isWs).reverse = l := by
  unfold trimEnd
  rw [← List.reverse_append, List.takeWhile_append_dropWhile, List.reverse_reverse]

/-- On a list already free of leading whitespace, `trimEnd` leaves no
leading whitespace either. -/
theorem dropWhile_trimEnd (y : List Char) (hy : y.dropWhile isWs = y) :
    (trimEnd y).dropWhile isWs = trimEnd y := by
  cases hE : trimEnd y with
  | nil => simp
  | cons c cs =>
    have h2 := trimEnd_append y
    rw [hE] at h2
    cases y with
    | nil => simp at h2
    | cons d ds =>
      have hc : c = d := by
        rw [List.cons_append] at h2
        exact (List.cons_eq_cons.mp h2).1
      have hd : isWs d = false := by
        cases hW : isWs d
        · rfl
        · exfalso
          rw [List.dropWhile_cons, if_pos hW] at hy
          have hlen : (List.dropWhile isWs ds).length = (d :: ds).length := by
            rw [hy]
          have hsub : (List.dropWhile isWs ds).length ≤ ds.length :=
            (List.dropWhile_sublist isWs).length_le
          simp at hlen
          omega
      subst hc
      simp [List.dropWhile_cons, hd]

/-- `str.strip()` is idempotent. -/
theorem stripWs_idem (l : List Char) : stripWs (stripWs l) = stripWs l := by
  unfold stripWs
  rw [dropWhile_trimEnd (l.dropWhile isWs) (dropWhile_ws_idem l), trimEnd_idem]

/-- The trailing-zero rule is a no-op on digit-free strings. -/
theorem stripTrailZero_no_digit (l : List Char)
    (h : ∀ c ∈ l, c.isDigit = false) : stripTrailZero l = l := by
  unfold stripTrailZero
  split
  · rename_i r heq
    exfalso
    have h0 : '0' ∈ l := by
      rw [← List.mem_reverse, heq]
      exact List.mem_cons_self _ _
    have := h '0' h0
    simp at this
  · rfl

/-- `\d{1,2}` cannot match on a digit-free string. -/
theorem digits12Tail_no_digit (l : List Char)
    (h : ∀ c ∈ l, c.isDigit = false) : digits12Tail l = none := by
  cases l with
  | nil => rfl
  | cons d1 t =>
    have h1 := h d1 (List.mem_cons_self _ _)
    cases t with
    | nil => simp [digits12Tail, h1]
    | cons d2 t2 => simp [digits12Tail, h1]

/-- The range pattern cannot match on a digit-free string. -/
theorem rangeCore_no_digit (l : List Char)
    (h : ∀ c ∈ l, c.isDigit = false) : rangeCore l = none := by
  unfold rangeCore
  rw [digits12Tail_no_digit l h]

/-- The optional-whitespace range pattern cannot match on a digit-free
string. -/
theorem rangeTail_no_digit (l : List Char)
    (h : ∀ c ∈ l, c.isDigit = false) : rangeTail l = none := by
  cases l with
  | nil => rfl
  | cons c cs =>
    unfold rangeTail
    have hcs : ∀ x ∈ cs, x.isDigit = false := fun x hx => h x (List.mem_cons_of_mem _ hx)
    cases hw : isWs c
    · simp [hw, rangeCore_no_digit _ h]
    · simp [hw, rangeCore_no_digit _ hcs]

/-- The range-removal scan is a no-op on digit-free strings. -/
theorem stripRangesF_no_digit (f : Nat) :
    ∀ l, (∀ c ∈ l, c.isDigit = false) → stripRangesF f l = l := by
  induction f with
  | zero => intro l _; cases l <;> rfl
  | succ f ih =>
    intro l h
    cases l with
    | nil => rfl
    | cons c cs =>
      have hcs : ∀ x ∈ cs, x.isDigit = false := fun x hx => h x (List.mem_cons_of_mem _ hx)
      simp only [stripRangesF, rangeTail_no_digit _ h]
      rw [ih cs hcs]

/-- `re.sub(r'\s?\d{1,2}-\d{1,2}', '', ·)` is a no-op on digit-free
strings. -/
theorem stripRanges_no_digit (l : List Char)
    (h : ∀ c ∈ l, c.isDigit = false) : stripRanges l = l :=
  stripRangesF_no_digit l.length l h

/-- The trailing-number rule is a no-op on digit-free strings. -/
theorem stripTrailNum_no_digit (l : List Char)
    (h : ∀ c ∈ l, c.isDigit = false) : stripTrailNum l = l := by
  unfold stripTrailNum
  have hds : l.reverse.takeWhile (fun c => c.isDigit) = [] := by
    cases hr : l.reverse with
    | nil => rfl
    | cons c r =>
      have hc : c ∈ l := by
        rw [← List.mem_reverse, hr]
        exact List.mem_cons_self _ _
      rw [List.takeWhile_cons, h c hc]
      rfl
  simp [hds]

/-- C2 (amended): the entry normalizer is not idempotent in general (see
the counterexample), but it is idempotent on every input whose normalized
form is digit-free — in particular on all plain entry codes. -/
theorem c2_amended (x : String)
    (h : ∀ c ∈ (normalize_entry x).data, c.isDigit = false) :
    normalize_entry (normalize_entry x) = normalize_entry x := by
  have key : ∀ z : List Char, (∀ c ∈ stripWs z, c.isDigit = false) →
      normalizeEntryL (stripWs z) = stripWs z := by
    intro z hz
    unfold normalizeEntryL
    rw [stripTrailZero_no_digit _ hz, stripRanges_no_digit _ hz,
      stripTrailNum_no_digit _ hz]
    exact stripWs_idem z
  exact congrArg String.mk
    (key (stripTrailNum (stripRanges (stripTrailZero x.data))) h)

/-- Witness for the amended C2 at the concrete entry "TRAIN 8-16". -/
theorem c2_witness :
    (∀ c ∈ (normalize_entry "TRAIN 8-16").data, c.isDigit = false) ∧
      normalize_entry (normalize_entry "TRAIN 8-16") = normalize_entry "TRAIN 8-16" :=
  ⟨by decide, c2_amended "TRAIN 8-16" (by decide)⟩

/-- The seven source-locale weekday abbreviations, in source order. -/
def germanAbbrevs : List String := ["Mo.", "Di.", "Mi.", "Do.", "Fr.", "Sa.", "So."]

/-- The seven target-locale weekday abbreviations, in source order. -/
def englishAbbrevs : List String := ["Mon.", "Tue.", "Wed.", "Thu.", "Fri.", "Sat.", "Sun."]

/-- A `str.replace` with a three-character pattern is a no-op when the
pattern does not occur in the string. -/
theorem replace3_no_occur (a b c : Char) (rep : List Char) :
    ∀ l : List Char, hasSub [a, b, c] l = false → replace3 a b c rep l = l := by
  intro l
  induction l with
  | nil => intro _; rfl
  | cons x xs ih =>
    intro h
    rw [hasSub, Bool.or_eq_false_iff] at h
    obtain ⟨h1, h2⟩ := h
    cases xs with
    | nil => rfl
    | cons y ys =>
      cases ys with
      | nil => rfl
      | cons z rest =>
        have hx : (x = a && y = b && z = c) = false := by
          by_cases hxa : x = a <;> by_cases hyb : y = b <;> by_cases hzc : z = c <;>
            simp_all [beginsWith]
        rw [replace3, hx]
        simp only [Bool.false_eq_true, if_false]
        rw [ih h2]

/-- C7: the weekday lookup table maps the 7 source abbreviations
one-to-one onto the 7 target abbreviations (total on them and
collision-free), and every string containing none of the 7 source
abbreviations is returned unchanged. -/
theorem c7_weekday_translation :
    (germanAbbrevs.map german_to_english_weekday = englishAbbrevs ∧
      englishAbbrevs.Nodup) ∧
    ∀ s : String, (∀ g ∈ germanAbbrevs, hasSub g.data s.data = false) →
      german_to_english_weekday s = s := by
  refine ⟨⟨rfl, by decide⟩, ?_⟩
  intro s h
  obtain ⟨ls⟩ := s
  have hMo : hasSub ['M', 'o', '.'] ls = false := h "Mo." (by decide)
  have hDi : hasSub ['D', 'i', '.'] ls = false := h "Di." (by decide)
  have hMi : hasSub ['M', 'i', '.'] ls = false := h "Mi." (by decide)
  have hDo : hasSub ['D', 'o', '.'] ls = false := h "Do." (by decide)
  have hFr : hasSub ['F', 'r', '.'] ls = false := h "Fr." (by decide)
  have hSa : hasSub ['S', 'a', '.'] ls = false := h "Sa." (by decide)
  have hSo : hasSub ['S', 'o', '.'] ls = false := h "So." (by decide)
  show String.mk (germanToEnglishL ls) = String.mk ls
  unfold germanToEnglishL
  rw [replace3_no_occur 'M' 'o' '.' "Mon.".data ls hMo,
    replace3_no_occur 'D' 'i' '.' "Tue.".data ls hDi,
    replace3_no_occur 'M' 'i' '.' "Wed.".data ls hMi,
    replace3_no_occur 'D' 'o' '.' "Thu.".data ls hDo,
    replace3_no_occur 'F' 'r' '.' "Fri.".data ls hFr,
    replace3_no_occur 'S' 'a' '.' "Sat.".data ls hSa,
    replace3_no_occur 'S' 'o' '.' "Sun.".data ls hSo]

/-- Witness for C7 on a concrete unrelated string. -/
theorem c7_witness :
    (∀ g ∈ germanAbbrevs, hasSub g.data ("01.01.2024 ILL" : String).data = false) ∧
      german_to_english_weekday "01.01.2024 ILL" = "01.01.2024 ILL" :=
  ⟨by decide, c7_weekday_translation.2 "01.01.2024 ILL" (by decide)⟩

/-- C3 (amended): `convert_shifts_to_ical` takes no timezone-identifier
input; it always uses the fixed zone Europe/Vienna, validates that zone
against the timezone table once up front, and when the zone is missing
from the table the whole encode call fails — independently of the shift
records, i.e. before any record is processed. -/
theorem c3_amended (allTZ : List String) (shifts : List (List RawShift))
    (h : allTZ.contains viennaTz = false) :
    convert_shifts_to_ical allTZ shifts =
      Except.error "timezone Europe/Vienna is not available" := by
  have h2 : viennaTz ∉ allTZ := by simpa using h
  simp [convert_shifts_to_ical, h2]

/-- Witness for the amended C3: a table without the fixed zone makes the
whole call fail, whatever the records are. -/
theorem c3_witness :
    (["UTC"] : List String).contains viennaTz = false ∧
      convert_shifts_to_ical ["UTC"]
          [[⟨some "Mon. 01.01.2024", some "08:00-16:00", some "8,00",
              some "TRAIN", some false⟩]] =
        Except.error "timezone Europe/Vienna is not available" :=
  ⟨by decide, c3_amended _ _ (by decide)⟩

/-- C4: for a non-all-day record whose date parses and whose shift_time
splits into two valid HH:MM times, when the end wall-clock time is
strictly before the start wall-clock time on the same date, the encoder
adds exactly one calendar day (1440 minutes on the day-number scale) to
the end timestamp. -/
theorem c4_overnight (rs : RawShift) (ds en st t1 t2 : String)
    (y m d h1 m1 h2 m2 : Nat)
    (hdate : rs.date = some ds) (hparse : parseDateL ds.data = some (y, m, d))
    (hen : rs.entry = some en) (had : rs.all_day = some false)
    (hst : rs.shift_time = some st) (hsplit : splitDash st = [t1, t2])
    (ht1 : parseHML t1.data = some (h1, m1)) (ht2 : parseHML t2.data = some (h2, m2))
    (hlt : h2 * 60 + m2 < h1 * 60 + m1) :
    createEvent rs =
      some ⟨en, toDayNumber y m d * 1440 + (h1 * 60 + m1),
        some (toDayNumber y m d * 1440 + (h2 * 60 + m2) + 1440), false⟩ := by
  have hcond : toDayNumber y m d * 1440 + (h2 * 60 + m2) <
      toDayNumber y m d * 1440 + (h1 * 60 + m1) := by omega
  simp [createEvent, hdate, hparse, hen, had, hst, hsplit, ht1, ht2, hcond]

/-- Witness for C4: the 22:00–06:00 shift on Mon. 01.01.2024 ends at
06:00 on the next day number, an 8-hour (480-minute) span. -/
theorem c4_witness :
    createEvent ⟨some "Mon. 01.01.2024", some "22:00-06:00", some "8,00",
        some "NIGHT", some false⟩ =
      some ⟨"NIGHT", toDayNumber 2024 1 1 * 1440 + 1320,
        some ((toDayNumber 2024 1 1 + 1) * 1440 + 360), false⟩ ∧
    (toDayNumber 2024 1 1 + 1) * 1440 + 360 -
        (toDayNumber 2024 1 1 * 1440 + 1320) = 480 := by
  constructor
  · have h := c4_overnight
      ⟨some "Mon. 01.01.2024", some "22:00-06:00", some "8,00", some "NIGHT", some false⟩
      "Mon. 01.01.2024" "NIGHT" "22:00-06:00" "22:00" "06:00" 2024 1 1 22 0 6 0
      rfl (by rfl) rfl rfl rfl (by rfl) (by rfl) (by rfl) (by omega)
    rw [h]
    have : toDayNumber 2024 1 1 * 1440 + (6 * 60 + 0) + 1440 =
        (toDayNumber 2024 1 1 + 1) * 1440 + 360 := by ring
    rw [this]
  · omega

/-- A digit is in none of the character classes of the name pattern. -/
theorem digit_not_nameChar (d : Char) (h : d.isDigit = true) :
    isNameChar d = false := by
  simp only [Char.isDigit, Bool.and_eq_true, decide_eq_true_eq] at h
  obtain ⟨h1, h2⟩ := h
  have hlo : 48 ≤ d.val.toNat := h1
  have hhi : d.val.toNat ≤ 57 := h2
  have hle : ∀ a b : UInt32, (a ≤ b) ↔ (a.toNat ≤ b.toNat) := fun a b => Iff.rfl
  have hge : ∀ a b : UInt32, (a ≥ b) ↔ (b.toNat ≤ a.toNat) := fun a b => Iff.rfl
  unfold isNameChar isWs Char.isAlpha Char.isUpper Char.isLower
  simp only [Bool.or_eq_false_iff, Bool.and_eq_false_iff, decide_eq_false_iff_not,
    Char.ext_iff, UInt32.ext_iff, hle, hge]
  have e1 : (65 : UInt32).toNat = 65 := rfl
  have e2 : (90 : UInt32).toNat = 90 := rfl
  have e3 : (97 : UInt32).toNat = 97 := rfl
  have e4 : (122 : UInt32).toNat = 122 := rfl
  have e5 : ('ä' : Char).val.toNat = 228 := rfl
  have e6 : ('ö' : Char).val.toNat = 246 := rfl
  have e7 : ('ü' : Char).val.toNat = 252 := rfl
  have e8 : ('Ä' : Char).val.toNat = 196 := rfl
  have e9 : ('Ö' : Char).val.toNat = 214 := rfl
  have e10 : ('Ü' : Char).val.toNat = 220 := rfl
  have e11 : ('ß' : Char).val.toNat = 223 := rfl
  have e12 : (' ' : Char).val.toNat = 32 := rfl
  have e13 : ('\t' : Char).val.toNat = 9 := rfl
  have e14 : ('\n' : Char).val.toNat = 10 := rfl
  have e15 : ('\r' : Char).val.toNat = 13 := rfl
  have e16 : ('\x0b' : Char).val.toNat = 11 := rfl
  have e17 : ('\x0c' : Char).val.toNat = 12 := rfl
  simp only [e1, e2, e3, e4, e5, e6, e7, e8, e9, e10, e11, e12, e13, e14, e15, e16, e17]
  omega

theorem takeWhile_append_all (p : Char → Bool) (s t : List Char)
    (hs : ∀ c ∈ s, p c = true) : (s ++ t).takeWhile p = s ++ t.takeWhile p := by
  induction s with
  | nil => rfl
  | cons c cs ih =>
    have hc := hs c (List.mem_cons_self _ _)
    have hcs : ∀ x ∈ cs, p x = true := fun x hx => hs x (List.mem_cons_of_mem _ hx)
    simp [List.takeWhile_cons, hc, ih hcs]

theorem dropWhile_append_all (p : Char → Bool) (s t : List Char)
    (hs : ∀ c ∈ s, p c = true) : (s ++ t).dropWhile p = t.dropWhile p := by
  induction s with
  | nil => rfl
  | cons c cs ih =>
    have hc := hs c (List.mem_cons_self _ _)
    have hcs : ∀ x ∈ cs, p x = true := fun x hx => hs x (List.mem_cons_of_mem _ hx)
    simp [List.dropWhile_cons, hc, ih hcs]

theorem nameGroup_construct (s1 s2 r : List Char)
    (h1 : s1 ≠ []) (h2 : ∀ c ∈ s1, isNameChar c = true)
    (h3 : s2 ≠ []) (h4 : ∀ c ∈ s2, isNameChar c = true) :
    nameGroup (s1 ++ ',' :: (s2 ++ r)) =
      some (s1 ++ ',' :: (s2 ++ r.takeWhile isNameChar)) := by
  have hc : isNameChar ',' = false := by decide
  have htake : (s1 ++ ',' :: (s2 ++ r)).takeWhile isNameChar = s1 := by
    rw [takeWhile_append_all _ _ _ h2, List.takeWhile_cons, hc]
    simp
  have hdrop : (s1 ++ ',' :: (s2 ++ r)).dropWhile isNameChar = ',' :: (s2 ++ r) := by
    rw [dropWhile_append_all _ _ _ h2, List.dropWhile_cons, hc]
    simp
  have htake2 : (s2 ++ r).takeWhile isNameChar = s2 ++ r.takeWhile isNameChar :=
    takeWhile_append_all _ _ _ h4
  have hne2 : s2 ++ r.takeWhile isNameChar ≠ [] := by
    intro hx
    exact h3 (List.append_eq_nil.mp hx).1
  simp only [nameGroup, htake, hdrop, htake2]
  simp [h1, hne2]

theorem nameGroup_eq_some (l g : List Char) (h : nameGroup l = some g) :
    ∃ s1 s2 r, l = s1 ++ ',' :: (s2 ++ r) ∧ s1 ≠ [] ∧
      (∀ c ∈ s1, isNameChar c = true) ∧ s2 ≠ [] ∧
      (∀ c ∈ s2, isNameChar c = true) ∧ g = s1 ++ ',' :: s2 := by
  unfold nameGroup at h
  split at h
  · rename_i r heq
    by_cases hs1 : l.takeWhile isNameChar = []
    · simp [hs1] at h
    · by_cases hs2 : r.takeWhile isNameChar = []
      · simp [hs1, hs2] at h
      · simp only [hs1, hs2, if_false, Option.some_inj] at h
        refine ⟨l.takeWhile isNameChar, r.takeWhile isNameChar, r.dropWhile isNameChar,
          ?_, hs1, ?_, hs2, ?_, h.symm⟩
        · have hr : r.takeWhile isNameChar ++ r.dropWhile isNameChar = r :=
            List.takeWhile_append_dropWhile _ _
          rw [hr, ← heq, List.takeWhile_append_dropWhile]
        · exact fun c hc => List.mem_takeWhile_imp hc
        · exact fun c hc => List.mem_takeWhile_imp hc
  · exact absurd h (by simp)

theorem nameGroup_self (l g : List Char) (h : nameGroup l = some g) :
    nameGroup g = some g := by
  obtain ⟨s1, s2, r, _, h1, h2, h3, h4, hg⟩ := nameGroup_eq_some l g h
  subst hg
  have := nameGroup_construct s1 s2 [] h1 h2 h3 h4
  simpa using this

theorem segStep_nameline (st : SegState) (l g : List Char)
    (h : nameGroup l = some g) : segStep st l = segStep st g := by
  have hg := nameGroup_self l g h
  unfold segStep
  rw [h, hg]

/-- C10: trailing characters after the matched name prefix of a name
line are discarded: replacing the line by just its matched prefix leaves
the whole segmentation result unchanged, so the remainder is never
buffered, never parsed, and contributes no record. -/
theorem c10_prefix_only (pre post : List (List Char)) (l g : List Char)
    (h : nameGroup l = some g) :
    processLinesSeg (pre ++ l :: post) = processLinesSeg (pre ++ g :: post) := by
  unfold processLinesSeg
  rw [List.foldl_append, List.foldl_append, List.foldl_cons, List.foldl_cons,
    segStep_nameline _ _ _ h]

/-- Witness for C10 on the line "Doe, John 5". -/
theorem c10_witness :
    processLinesSeg ["Doe, John 5".data] = processLinesSeg ["Doe, John ".data] :=
  c10_prefix_only [] [] "Doe, John 5".data "Doe, John ".data (by rfl)

/-- C8 (amended): a line is classified as a name line exactly when it
starts with a nonempty run of name characters, a comma, then at least
one further name character; arbitrary trailing characters (digits
included) are allowed after that prefix, and a line whose first
character is a digit is never a name line. -/
theorem c8_amended :
    (∀ l : List Char, isNameLine l = true ↔
      ∃ s1 s2 r, l = s1 ++ ',' :: (s2 ++ r) ∧ s1 ≠ [] ∧
        (∀ c ∈ s1, isNameChar c = true) ∧ s2 ≠ [] ∧
        (∀ c ∈ s2, isNameChar c = true)) ∧
    ∀ (d : Char) (t : List Char), d.isDigit = true → isNameLine (d :: t) = false := by
  constructor
  · intro l
    constructor
    · intro h
      obtain ⟨g, hg⟩ := Option.isSome_iff_exists.mp h
      obtain ⟨s1, s2, r, hl, h1, h2, h3, h4, _⟩ := nameGroup_eq_some l g hg
      exact ⟨s1, s2, r, hl, h1, h2, h3, h4⟩
    · rintro ⟨s1, s2, r, hl, h1, h2, h3, h4⟩
      subst hl
      unfold isNameLine
      rw [nameGroup_construct s1 s2 r h1 h2 h3 h4]
      rfl
  · intro d t hd
    have hnc := digit_not_nameChar d hd
    unfold isNameLine nameGroup
    simp [List.dropWhile_cons, hnc, List.takeWhile_cons]
    split <;> rfl

/-- Witness for the amended C8 at concrete lines. -/
theorem c8_witness :
    Char.isDigit '7' = true ∧ isNameLine ('7' :: " hello".data) = false ∧
      isNameLine "Doe, John".data = true :=
  ⟨by decide, c8_amended.2 '7' " hello".data (by decide),
    (c8_amended.1 "Doe, John".data).mpr
      ⟨"Doe".data, " John".data, [], by decide, by decide, by decide, by decide,
        by decide⟩⟩

theorem extendAt_nil (k : String) (ps : List (String × List Shift)) :
    extendAt k [] ps = ps := by
  induction ps with
  | nil => rfl
  | cons p rest ih =>
    obtain ⟨k2, vs⟩ := p
    by_cases hk : k2 = k
    · simp [extendAt, hk]
    · simp [extendAt, hk, ih]

theorem extend_if_collapse (k : String) (v : List Shift)
    (ps : List (String × List Shift)) :
    (if v = [] then ps else extendAt k v ps) = extendAt k v ps := by
  by_cases hv : v = []
  · rw [if_pos hv, hv, extendAt_nil]
  · rw [if_neg hv]

theorem foldl_nonname (b : List (List Char)) :
    ∀ (ps : List (String × List Shift)) (k : String) (buf : List (List Char)),
      (∀ l ∈ b, nameGroup l = none) →
      b.foldl segStep ⟨ps, some k, buf⟩ = ⟨ps, some k, buf ++ b⟩ := by
  induction b with
  | nil => intro ps k buf _; simp
  | cons l ls ih =>
    intro ps k buf h
    have hl : nameGroup l = none := h l (List.mem_cons_self _ _)
    have hls : ∀ x ∈ ls, nameGroup x = none :=
      fun x hx => h x (List.mem_cons_of_mem _ hx)
    rw [List.foldl_cons]
    have hstep : segStep ⟨ps, some k, buf⟩ l = ⟨ps, some k, buf ++ [l]⟩ := by
      simp [segStep, hl]
    rw [hstep, ih ps k (buf ++ [l]) hls]
    simp

theorem trimEnd_append_ws (u : List Char) (c : Char) (hc : isWs c = true) :
    trimEnd (u ++ [c]) = trimEnd u := by
  unfold trimEnd
  rw [List.reverse_append]
  simp [List.dropWhile_cons, hc]

theorem stripWs_append_ws (g : List Char) (c : Char) (hc : isWs c = true) :
    stripWs (g ++ [c]) = stripWs g := by
  unfold stripWs
  rw [List.dropWhile_append]
  by_cases h : (g.dropWhile isWs).isEmpty = true
  · rw [if_pos h]
    have hg : g.dropWhile isWs = [] := List.isEmpty_iff.mp h
    rw [hg]
    simp [List.dropWhile_cons, hc, trimEnd]
  · rw [if_neg h]
    exact trimEnd_append_ws _ c hc

theorem cleanName_append_ws (g : List Char) :
    cleanNameL (g ++ [' ']) = cleanNameL g := by
  unfold cleanNameL
  rw [stripWs_append_ws g ' ' (by decide)]

/-- C5: a block under the pure name line "X" followed later by a block
under "X (Forts.)" collapses to one key (the continuation suffix is
dropped), and the continuation block's parsed records are appended after
the first block's records, preserving encounter order. -/
theorem c5_continuation (s1 s2 : List Char) (b1 b2 : List (List Char))
    (h1 : s1 ≠ []) (h2 : ∀ c ∈ s1, isNameChar c = true)
    (h3 : s2 ≠ []) (h4 : ∀ c ∈ s2, isNameChar c = true)
    (hb1 : ∀ l ∈ b1, nameGroup l = none) (hb2 : ∀ l ∈ b2, nameGroup l = none) :
    nameKeyOf ((s1 ++ ',' :: s2) ++ fortsMarker) = nameKeyOf (s1 ++ ',' :: s2) ∧
    processLinesSeg
        (((s1 ++ ',' :: s2) :: b1) ++ ((s1 ++ ',' :: s2) ++ fortsMarker) :: b2) =
      [((⟨normalizeNameL (cleanNameL (s1 ++ ',' :: s2))⟩ : String),
        processExtractedTextL (joinNl b1) ++ processExtractedTextL (joinNl b2))] := by
  have hx : nameGroup (s1 ++ ',' :: s2) = some (s1 ++ ',' :: s2) := by
    have := nameGroup_construct s1 s2 [] h1 h2 h3 h4
    simpa using this
  have hmarker : (s1 ++ ',' :: s2) ++ fortsMarker = s1 ++ ',' :: (s2 ++ fortsMarker) := by
    simp
  have hxf : nameGroup ((s1 ++ ',' :: s2) ++ fortsMarker) =
      some ((s1 ++ ',' :: s2) ++ [' ']) := by
    rw [hmarker, nameGroup_construct s1 s2 fortsMarker h1 h2 h3 h4]
    have hfm : fortsMarker.takeWhile isNameChar = [' '] := by decide
    rw [hfm]
    simp
  have hclean : cleanNameL (s1 ++ ',' :: (s2 ++ [' '])) = cleanNameL (s1 ++ ',' :: s2) := by
    have hass : s1 ++ ',' :: (s2 ++ [' ']) = (s1 ++ ',' :: s2) ++ [' '] := by simp
    rw [hass, cleanName_append_ws]
  have hkey : nameKeyOf ((s1 ++ ',' :: s2) ++ fortsMarker) =
      nameKeyOf (s1 ++ ',' :: s2) := by
    unfold nameKeyOf
    rw [hx, hxf]
    simp only [Option.map_some']
    simp [hclean]
  refine ⟨hkey, ?_⟩
  unfold processLinesSeg
  rw [List.foldl_append, List.foldl_cons, List.foldl_cons]
  have hstep1 : segStep ⟨[], none, []⟩ (s1 ++ ',' :: s2) =
      ⟨[((⟨normalizeNameL (cleanNameL (s1 ++ ',' :: s2))⟩ : String), [])],
        some (⟨normalizeNameL (cleanNameL (s1 ++ ',' :: s2))⟩ : String), []⟩ := by
    simp [segStep, hx, flushBuffer, hasKey]
  rw [hstep1,
    foldl_nonname b1 _ (⟨normalizeNameL (cleanNameL (s1 ++ ',' :: s2))⟩ : String) [] hb1]
  have hstep2 : segStep
      ⟨[((⟨normalizeNameL (cleanNameL (s1 ++ ',' :: s2))⟩ : String), [])],
        some (⟨normalizeNameL (cleanNameL (s1 ++ ',' :: s2))⟩ : String), [] ++ b1⟩
      ((s1 ++ ',' :: s2) ++ fortsMarker) =
      ⟨[((⟨normalizeNameL (cleanNameL (s1 ++ ',' :: s2))⟩ : String),
          processExtractedTextL (joinNl b1))],
        some (⟨normalizeNameL (cleanNameL (s1 ++ ',' :: s2))⟩ : String), []⟩ := by
    simp only [List.nil_append]
    have hxf2 : nameGroup (s1 ++ ',' :: (s2 ++ fortsMarker)) =
        some ((s1 ++ ',' :: s2) ++ [' ']) := by
      rw [← hmarker]
      exact hxf
    by_cases hsh : processExtractedTextL (joinNl b1) = []
    · simp [segStep, hxf2, flushBuffer, hclean, hasKey, hsh]
    · simp [segStep, hxf2, flushBuffer, hclean, hasKey, hsh, extendAt]
  rw [hstep2,
    foldl_nonname b2 _ (⟨normalizeNameL (cleanNameL (s1 ++ ',' :: s2))⟩ : String) [] hb2]
  simp only [List.nil_append]
  unfold segFinish
  by_cases hb2e : b2 = []
  · subst hb2e
    have hpe : processExtractedTextL (joinNl []) = [] := rfl
    simp [hpe]
  · simp only [hb2e, if_false]
    rw [extend_if_collapse]
    simp [extendAt]

/-- Witness for C5 on the concrete continuation example. -/
theorem c5_witness :
    processLinesSeg
        ((("Mustermann".data ++ ',' :: " Max".data) ::
            ["Mo. 01.01.2024 08:00-16:00 8,00TRAIN 8-16".data]) ++
          (("Mustermann".data ++ ',' :: " Max".data) ++ fortsMarker) ::
            ["Di. 02.01.2024 Ganztägig 8,00ILL0".data]) =
      [("Mustermann, Max",
        [⟨"Mon. 01.01.2024", "08:00-16:00", "8,00", "TRAIN", false⟩,
         ⟨"Tue. 02.01.2024", "All Day", "8,00", "ILL", true⟩])] := by
  have h := (c5_continuation "Mustermann".data " Max".data
      ["Mo. 01.01.2024 08:00-16:00 8,00TRAIN 8-16".data]
      ["Di. 02.01.2024 Ganztägig 8,00ILL0".data]
      (by decide) (by decide) (by decide) (by decide) (by decide) (by decide)).2
  rw [h]
  rfl

theorem foldl_events_inner (l : List RawShift) :
    ∀ acc : List CalEvent,
      l.foldl (fun a s =>
        match createEvent s with
        | some e => a ++ [e]
        | none => a) acc = acc ++ l.filterMap createEvent := by
  induction l with
  | nil => intro acc; simp
  | cons s rest ih =>
    intro acc
    rw [List.foldl_cons]
    cases hc : createEvent s with
    | none => simp only [hc]; rw [ih acc, List.filterMap_cons_none hc]
    | some e => simp only [hc]; rw [ih (acc ++ [e]), List.filterMap_cons_some hc]; simp

/-- The nested loops of `convert_shifts_to_ical` collect exactly the
convertible records, in order. -/
theorem collectEvents_eq (shifts : List (List RawShift)) :
    collectEvents shifts =
      (shifts.map (fun g => g.filterMap createEvent)).flatten := by
  unfold collectEvents
  suffices h : ∀ acc, shifts.foldl (fun acc lst => lst.foldl (fun a s =>
      match createEvent s with
      | some e => a ++ [e]
      | none => a) acc) acc =
      acc ++ (shifts.map (fun g => g.filterMap createEvent)).flatten by
    simpa using h []
  induction shifts with
  | nil => intro acc; simp
  | cons g gs ih =>
    intro acc
    rw [List.foldl_cons, foldl_events_inner, ih]
    simp

/-- C6: with a valid timezone table the encode call always succeeds
(per-record failures never propagate); a record rejected by
`create_event` is dropped without affecting any other record or person;
and `create_event` rejects precisely the malformed records: unparseable
or missing date, missing entry, missing all-day flag, missing or
non-two-token or non-HH:MM shift_time on timed records. -/
theorem c6_per_record :
    (∀ (allTZ : List String) (shifts : List (List RawShift)),
        allTZ.contains viennaTz = true →
        ∃ out, convert_shifts_to_ical allTZ shifts = Except.ok out) ∧
    (∀ (allTZ : List String) (gs1 gs2 : List (List RawShift))
        (pre post : List RawShift) (bad : RawShift), createEvent bad = none →
        convert_shifts_to_ical allTZ (gs1 ++ (pre ++ bad :: post) :: gs2) =
          convert_shifts_to_ical allTZ (gs1 ++ (pre ++ post) :: gs2)) ∧
    (∀ (rs : RawShift) (ds : String), rs.date = some ds →
        parseDateL ds.data = none → createEvent rs = none) ∧
    (∀ rs : RawShift, rs.date = none → createEvent rs = none) ∧
    (∀ rs : RawShift, rs.entry = none → createEvent rs = none) ∧
    (∀ rs : RawShift, rs.all_day = none → createEvent rs = none) ∧
    (∀ rs : RawShift, rs.all_day = some false → rs.shift_time = none →
        createEvent rs = none) ∧
    (∀ (rs : RawShift) (st : String), rs.all_day = some false →
        rs.shift_time = some st → (splitDash st).length ≠ 2 →
        createEvent rs = none) ∧
    (∀ (rs : RawShift) (st t1 t2 : String), rs.all_day = some false →
        rs.shift_time = some st → splitDash st = [t1, t2] →
        parseHML t1.data = none ∨ parseHML t2.data = none →
        createEvent rs = none) := by
  refine ⟨?_, ?_, ?_, ?_, ?_, ?_, ?_, ?_, ?_⟩
  · intro allTZ shifts hc
    have hm : viennaTz ∈ allTZ := by simpa using hc
    exact ⟨serializeCal (collectEvents shifts), by simp [convert_shifts_to_ical, hm]⟩
  · intro allTZ gs1 gs2 pre post bad hbad
    unfold convert_shifts_to_ical
    cases hc : allTZ.contains viennaTz
    · simp [hc]
    · simp only [hc, if_true]
      rw [collectEvents_eq, collectEvents_eq]
      simp [List.filterMap_append, List.filterMap_cons_none hbad]
  · intro rs ds hdate hparse
    simp [createEvent, hdate, hparse]
  · intro rs hdate
    simp [createEvent, hdate]
  · intro rs hentry
    cases hd : rs.date with
    | none => simp [createEvent, hd]
    | some ds =>
      cases hp : parseDateL ds.data with
      | none => simp [createEvent, hd, hp]
      | some ymd =>
        obtain ⟨y, m, d⟩ := ymd
        simp [createEvent, hd, hp, hentry]
  · intro rs had
    cases hd : rs.date with
    | none => simp [createEvent, hd]
    | some ds =>
      cases hp : parseDateL ds.data with
      | none => simp [createEvent, hd, hp]
      | some ymd =>
        obtain ⟨y, m, d⟩ := ymd
        cases he : rs.entry with
        | none => simp [createEvent, hd, hp, he]
        | some en => simp [createEvent, hd, hp, he, had]
  · intro rs had hst
    cases hd : rs.date with
    | none => simp [createEvent, hd]
    | some ds =>
      cases hp : parseDateL ds.data with
      | none => simp [createEvent, hd, hp]
      | some ymd =>
        obtain ⟨y, m, d⟩ := ymd
        cases he : rs.entry with
        | none => simp [createEvent, hd, hp, he]
        | some en => simp [createEvent, hd, hp, he, had, hst]
  · intro rs st had hst hlen
    cases hd : rs.date with
    | none => simp [createEvent, hd]
    | some ds =>
      cases hp : parseDateL ds.data with
      | none => simp [createEvent, hd, hp]
      | some ymd =>
        obtain ⟨y, m, d⟩ := ymd
        cases he : rs.entry with
        | none => simp [createEvent, hd, hp, he]
        | some en =>
          simp only [createEvent, hd, hp, he, had, Bool.false_eq_true, if_false, hst]
          split
          · rename_i t1 t2 heq
            exact absurd (by rw [heq]; rfl) hlen
          · rfl
  · intro rs st t1 t2 had hst hsplit hpar
    cases hd : rs.date with
    | none => simp [createEvent, hd]
    | some ds =>
      cases hp : parseDateL ds.data with
      | none => simp [createEvent, hd, hp]
      | some ymd =>
        obtain ⟨y, m, d⟩ := ymd
        cases he : rs.entry with
        | none => simp [createEvent, hd, hp, he]
        | some en =>
          simp only [createEvent, hd, hp, he, had, Bool.false_eq_true, if_false, hst,
            hsplit]
          rcases hpar with h1 | h2
          · simp [h1]
          · cases hq : parseHML t1.data with
            | none => simp
            | some hm1 =>
              obtain ⟨a, b⟩ := hm1
              simp [h2]

/-- Witness for C6: a record with an unparseable date is dropped while
the surrounding good record still converts, and the call succeeds. -/
theorem c6_witness :
    createEvent ⟨some "garbage", none, none, some "X", some true⟩ = none ∧
    convert_shifts_to_ical ["Europe/Vienna"]
        [[⟨some "Mon. 01.01.2024", some "08:00-16:00", some "8,00", some "TRAIN",
            some false⟩,
          ⟨some "garbage", none, none, some "X", some true⟩]] =
      convert_shifts_to_ical ["Europe/Vienna"]
        [[⟨some "Mon. 01.01.2024", some "08:00-16:00", some "8,00", some "TRAIN",
            some false⟩]] :=
  ⟨by rfl,
    c6_per_record.2.1 ["Europe/Vienna"] [] []
      [⟨some "Mon. 01.01.2024", some "08:00-16:00", some "8,00", some "TRAIN",
          some false⟩]
      [] ⟨some "garbage", none, none, some "X", some true⟩ (by rfl)⟩

theorem eventsOf_filterMap (l : List RawShift) :
    EventsOf l (l.filterMap createEvent) := by
  induction l with
  | nil => exact EventsOf.nil
  | cons s rest ih =>
    cases hc : createEvent s with
    | none =>
      rw [List.filterMap_cons_none hc]
      exact EventsOf.skip hc ih
    | some e =>
      rw [List.filterMap_cons_some hc]
      exact EventsOf.keep hc ih

theorem eventsOfAll_flatten (gs : List (List RawShift)) :
    EventsOfAll gs ((gs.map (fun g => g.filterMap createEvent)).flatten) := by
  induction gs with
  | nil => exact EventsOfAll.nil
  | cons g rest ih => exact EventsOfAll.cons (eventsOf_filterMap g) ih

theorem eventsOf_det (l : List RawShift) (e1 e2 : List CalEvent)
    (h1 : EventsOf l e1) (h2 : EventsOf l e2) : e1 = e2 := by
  induction h1 generalizing e2 with
  | nil => cases h2; rfl
  | skip hc _ ih =>
    cases h2 with
    | skip hc2 hrest => exact ih _ hrest
    | keep hc2 hrest => rw [hc] at hc2; cases hc2
  | keep hc _ ih =>
    cases h2 with
    | skip hc2 hrest => rw [hc2] at hc; cases hc
    | keep hc2 hrest =>
      rw [hc] at hc2
      injection hc2 with he
      rw [he, ih _ hrest]

theorem eventsOfAll_det (gs : List (List RawShift)) (e1 e2 : List CalEvent)
    (h1 : EventsOfAll gs e1) (h2 : EventsOfAll gs e2) : e1 = e2 := by
  induction h1 generalizing e2 with
  | nil => cases h2; rfl
  | cons hg _ ih =>
    cases h2 with
    | cons hg2 hrest =>
      rw [eventsOf_det _ _ _ hg hg2, ih _ hrest]

/-- C9: the calendar encoder is a deterministic function of its inputs —
any two runs of the encoding relation on the same timezone table and
shift lists produce the same serialized result — and
`convert_shifts_to_ical` realizes that relation. -/
theorem c9_deterministic :
    (∀ (allTZ : List String) (shifts : List (List RawShift))
        (r1 r2 : Except String String),
        Encodes allTZ shifts r1 → Encodes allTZ shifts r2 → r1 = r2) ∧
    (∀ (allTZ : List String) (shifts : List (List RawShift)),
        Encodes allTZ shifts (convert_shifts_to_ical allTZ shifts)) := by
  constructor
  · intro allTZ shifts r1 r2 h1 h2
    cases h1 with
    | err hf =>
      cases h2 with
      | err _ => rfl
      | ok ht _ => rw [hf] at ht; cases ht
    | ok ht hev =>
      cases h2 with
      | err hf => rw [hf] at ht; cases ht
      | ok ht2 hev2 => rw [eventsOfAll_det _ _ _ hev hev2]
  · intro allTZ shifts
    unfold convert_shifts_to_ical
    cases hc : allTZ.contains viennaTz
    · rw [if_neg (by simp [hc])]
      exact Encodes.err hc
    · rw [if_pos (by simp [hc]), collectEvents_eq]
      exact Encodes.ok hc (eventsOfAll_flatten shifts)

/-- Witness for C9: the two halves combined pin down the concrete result
of a concrete invocation. -/
theorem c9_witness :
    convert_shifts_to_ical ["Europe/Vienna"] [[]] = Except.ok (serializeCal []) := by
  have h1 := c9_deterministic.2 ["Europe/Vienna"] [[]]
  have h2 : Encodes ["Europe/Vienna"] [[]] (Except.ok (serializeCal ([] ++ []))) :=
    Encodes.ok (by rfl) (EventsOfAll.cons EventsOf.nil EventsOfAll.nil)
  have h3 := c9_deterministic.1 _ _ _ _ h1 h2
  simpa using h3
